import Mathlib

/-!
Shallow embedding of the Bonfida dex-v4 TypeScript client library
(fee schedule, fixed-point price and size conversion, instruction
encoding, account-state decoding, program-derived-address resolution),
with theorems checking the natural-language specification against it.

Conventions of the embedding:
* JavaScript numbers that hold token balances or user-interface prices
  are modelled as exact rationals (the float computations of the source
  are given exact semantics).
* BN (bn.js big integers) are modelled as `Int` or `Nat`.
  `new BN(x)` on a fractional number truncates toward zero
  (`bn.js` masks the number with bitwise operations); this is
  `Int.tdiv num den` on the rational's numerator and denominator.
  `BN.umod` returns the remainder with the least nonnegative value,
  which is `Int.emod`.  `bn.js` throws an assertion failure when the
  divisor of `umod` is zero; the checked variants below model the
  throw as `Except.error`.
* Solana public keys and byte buffers are lists of bytes (`List Nat`).
-/

namespace DexV4

/-! ## Fee schedule (src/js/src/fees.ts) -/

/-- Threshold entry of the static `FEES` table: a finite SRM balance
threshold or the JavaScript `Infinity` sentinel. -/
inductive FeeThreshold where
  | fin (q : ℚ)
  | inf
deriving DecidableEq

/-- JavaScript comparison `balance < threshold`, where the threshold may be
`Infinity` (every finite balance is below `Infinity`). -/
def FeeThreshold.ltThresh (balance : ℚ) : FeeThreshold → Bool
  | .fin q => decide (balance < q)
  | .inf => true

/-- The `srm` thresholds of the `FEES` table, as iterated by
`Object.entries(FEES)` (integer-like keys enumerate in ascending
numeric order 0,1,...,6). -/
def srmThresholds : List (Nat × FeeThreshold) :=
  [(0, .fin 0), (1, .fin 100), (2, .fin 1000), (3, .fin 10000),
   (4, .fin 100000), (5, .fin 1000000), (6, .inf)]

/-- Embedding of `getFeeTier(msrmBalance, srmBalance)` of fees.ts:
return 6 when `msrmBalance >= 1`; otherwise scan the entries in
ascending key order and return `key - 1` at the first entry whose
`srm` threshold strictly exceeds the balance; fall through to 0. -/
def getFeeTier (msrmBalance srmBalance : ℚ) : ℤ :=
  if 1 ≤ msrmBalance then 6
  else
    match srmThresholds.find? (fun p => FeeThreshold.ltThresh srmBalance p.2) with
    | some p => (p.1 : ℤ) - 1
    | none => 0

/-! ## Fixed-point conversion (src/unnamed/part_004 `computeFp32Price`,
src/js/src/utils.ts `computeSize`) -/

/-- The market fields consumed by the converters (a projection of the
`Market` class of market.ts). -/
structure Market where
  tickSize : ℤ
  baseDecimals : ℤ
  quoteDecimals : ℤ
  baseCurrencyMultiplier : ℤ
  quoteCurrencyMultiplier : ℤ
  minOrderSize : ℤ

/-- Semantics of `new BN(x)` on a JavaScript number `x`: truncation of
the fractional part toward zero. -/
def bnNew (q : ℚ) : ℤ := Int.tdiv q.num q.den

/-- The local `x` of `computeFp32Price` in src/unnamed/part_004:
`uiPrice * baseQuoteMul * decimalsMul`, where
`decimalsMul = 10 ** (quoteDecimals - baseDecimals)` and
`baseQuoteMul = baseCurrencyMultiplier / quoteCurrencyMultiplier`. -/
def fp32ScaledInput (m : Market) (uiPrice : ℚ) : ℚ :=
  let decimalsMul : ℚ := 10 ^ (m.quoteDecimals - m.baseDecimals)
  let baseQuoteMul : ℚ := (m.baseCurrencyMultiplier : ℚ) / (m.quoteCurrencyMultiplier : ℚ)
  uiPrice * baseQuoteMul * decimalsMul

/-- The local `price` of `computeFp32Price` in src/unnamed/part_004:
`new BN(x).mul(new BN(2 ** 32)).add(new BN(fracX))` with
`fracX = 2 ** 32 * (x - Math.floor(x))`. -/
def fp32UnroundedPrice (m : Market) (uiPrice : ℚ) : ℤ :=
  let x : ℚ := fp32ScaledInput m uiPrice
  let fracX : ℚ := 2 ^ 32 * (x - ⌊x⌋)
  bnNew x * 2 ^ 32 + bnNew fracX

/-- Embedding of `computeFp32Price(market, uiPrice)` of
src/unnamed/part_004: scale the price by the currency-multiplier ratio
and the decimal factor, split into integer part and a 32-bit scaled
fractional part, then round down to the tick grid by subtracting the
`umod` remainder (`rem = price.umod(tickSize); price.sub(rem)`). -/
def computeFp32Price (m : Market) (uiPrice : ℚ) : ℤ :=
  let price : ℤ := fp32UnroundedPrice m uiPrice
  let rem : ℤ := price.emod m.tickSize
  price - rem

/-- Modelled from the spec: the naively-scaled value that §4.3 and C2
compare against, `uiPrice` scaled by the decimal and multiplier
factors and by `2 ** 32`, with no rounding at all. -/
def specNaiveScaledPrice (m : Market) (uiPrice : ℚ) : ℚ :=
  fp32ScaledInput m uiPrice * 2 ^ 32

/-- Errors surfaced by the converters: the assertion failure thrown by
`bn.js` when `umod` divides by zero, and the assertion failure thrown
by `new BN(NaN)` after a JavaScript `% 0`. -/
inductive ConversionErr where
  | bnZeroDivisorAssert
  | bnNanAssert
deriving DecidableEq

/-- Behaviour of `computeFp32Price` including the error channel:
when `tickSize` is zero, `price.umod(tickSize)` throws inside bn.js;
otherwise the value of `computeFp32Price` is returned. -/
def computeFp32PriceChecked (m : Market) (uiPrice : ℚ) : Except ConversionErr ℤ :=
  if m.tickSize = 0 then .error .bnZeroDivisorAssert
  else .ok (computeFp32Price m uiPrice)

/-- Embedding of `computeSize(market, size)` of utils.ts:
`new BN(size - (size % market.minOrderSize))`.  The JavaScript `%`
keeps the sign of the dividend (`Int.tmod`); with a zero
`minOrderSize` the `%` yields `NaN` and `new BN(NaN)` throws. -/
def computeSizeChecked (m : Market) (size : ℤ) : Except ConversionErr ℤ :=
  if m.minOrderSize = 0 then .error .bnNanAssert
  else .ok (size - Int.tmod size m.minOrderSize)

/-! ## Instruction codec (src/js/src/raw_instructions.ts,
src/unnamed/part_001) -/

/-- A byte buffer or raw 32-byte public key. -/
abbrev Bytes := List Nat

/-- An account role of an instruction: `AccountKey` of
raw_instructions.ts. -/
structure AccountKey where
  pubkey : Bytes
  isSigner : Bool
  isWritable : Bool
deriving DecidableEq

/-- A built instruction: `TransactionInstruction` with its positional
account-role list, program id and serialized payload. -/
structure TransactionInstruction where
  keys : List AccountKey
  programId : Bytes
  data : List Nat
deriving DecidableEq

/-- Little-endian serialization of an unsigned 64-bit integer, as
borsh `serialize` writes a `u64` field. -/
def u64LE (n : Nat) : List Nat :=
  (List.range 8).map (fun i => n / 256 ^ i % 256)

/-- Node `Buffer.compare(a, b)` as a boolean "less or equal":
lexicographic comparison of the raw bytes, a strict prefix comparing
below the longer buffer. -/
def bufLe : Bytes → Bytes → Bool
  | [], _ => true
  | _ :: _, [] => false
  | a :: as, b :: bs =>
    if a < b then true
    else if b < a then false
    else bufLe as bs

/-- Embedding of `consumeEventsInstruction.getInstruction` of
raw_instructions.ts: serialized tag 3 and `maxIterations`, followed by
the roles market, orderbook, event queue, reward target (all writable
non-signers) and then one writable non-signer role per user account,
in the order given. -/
def consumeEventsGetInstruction (programId market orderbook eventQueue rewardTarget : Bytes)
    (userAccounts : List Bytes) (maxIterations : Nat) : TransactionInstruction :=
  { keys :=
      [⟨market, false, true⟩, ⟨orderbook, false, true⟩,
       ⟨eventQueue, false, true⟩, ⟨rewardTarget, false, true⟩] ++
      userAccounts.map (fun k => ⟨k, false, true⟩)
    programId := programId
    data := u64LE 3 ++ u64LE maxIterations }

/-- Embedding of the `consumeEvents` binding of src/unnamed/part_001
(lines 359-382): the user accounts are mapped to their raw buffers,
sorted with `Buffer.compare`, mapped back to keys, and handed to
`consumeEventsInstruction.getInstruction`.  Key-to-buffer conversion
is the identity of this embedding. -/
def consumeEvents (programId market orderbook eventQueue rewardTarget : Bytes)
    (userAccounts : List Bytes) (maxIterations : Nat) : TransactionInstruction :=
  consumeEventsGetInstruction programId market orderbook eventQueue rewardTarget
    (userAccounts.mergeSort bufLe) maxIterations

/-- Embedding of `newOrderInstruction.getInstruction` of
raw_instructions.ts (lines 109-199): twelve fixed roles, then the
optional discount-token account appended as a final non-signer
non-writable role only when provided. -/
def newOrderGetInstruction (programId splTokenProgram systemProgram market orderbook
    eventQueue bids asks baseVault quoteVault user userTokenAccount userOwner : Bytes)
    (discountTokenAccount : Option Bytes)
    (limitPrice maxBaseQty maxQuoteQty matchLimit : Nat)
    (side orderType selfTradeBehavior : Nat) : TransactionInstruction :=
  { keys :=
      [⟨splTokenProgram, false, false⟩, ⟨systemProgram, false, false⟩,
       ⟨market, false, true⟩, ⟨orderbook, false, true⟩,
       ⟨eventQueue, false, true⟩, ⟨bids, false, true⟩, ⟨asks, false, true⟩,
       ⟨baseVault, false, true⟩, ⟨quoteVault, false, true⟩,
       ⟨user, false, true⟩, ⟨userTokenAccount, false, true⟩,
       ⟨userOwner, true, true⟩] ++
      (match discountTokenAccount with
       | some d => [⟨d, false, false⟩]
       | none => [])
    programId := programId
    data := u64LE 1 ++ u64LE limitPrice ++ u64LE maxBaseQty ++ u64LE maxQuoteQty ++
      u64LE matchLimit ++ [side, orderType, selfTradeBehavior] ++ List.replicate 5 0 }

/-! ## State decoder (src/js/src/state.ts) -/

/-- Decode failures raised by the borsh deserializer: reading past the
end of the buffer, and (for the checked `deserialize` entry point)
unconsumed trailing bytes. -/
inductive DecodeErr where
  | endOfBuffer
  | trailingBytes
deriving DecidableEq

/-- Borsh byte-level read: take `n` bytes, failing when fewer remain. -/
def readBytes (n : Nat) (b : Bytes) : Except DecodeErr (Bytes × Bytes) :=
  if n ≤ b.length then .ok (b.take n, b.drop n) else .error .endOfBuffer

/-- Little-endian value of a byte list. -/
def leNat (bs : Bytes) : Nat :=
  bs.foldr (fun byte acc => byte + 256 * acc) 0

/-- Borsh `u64` read: eight little-endian bytes. -/
def readU64 (b : Bytes) : Except DecodeErr (Nat × Bytes) := do
  let (bs, rest) ← readBytes 8 b
  .ok (leNat bs, rest)

/-- Borsh `u32` read: four little-endian bytes. -/
def readU32 (b : Bytes) : Except DecodeErr (Nat × Bytes) := do
  let (bs, rest) ← readBytes 4 b
  .ok (leNat bs, rest)

/-- Borsh `u128` read: sixteen little-endian bytes. -/
def readU128 (b : Bytes) : Except DecodeErr (Nat × Bytes) := do
  let (bs, rest) ← readBytes 16 b
  .ok (leNat bs, rest)

/-- Borsh fixed-length array of `u64` (schema `["u64", n]`): `n`
successive `u64` reads. -/
def readU64Array : Nat → Bytes → Except DecodeErr (List Nat × Bytes)
  | 0, b => .ok ([], b)
  | n + 1, b => do
    let (v, rest) ← readU64 b
    let (vs, rest2) ← readU64Array n rest
    .ok (v :: vs, rest2)

/-- Borsh run of `n` successive `u128` reads (the element loop of a
dynamic `["u128"]` array). -/
def readU128s : Nat → Bytes → Except DecodeErr (List Nat × Bytes)
  | 0, b => .ok ([], b)
  | n + 1, b => do
    let (v, rest) ← readU128 b
    let (vs, rest2) ← readU128s n rest
    .ok (v :: vs, rest2)

/-- Borsh dynamic array of `u128` (schema `["u128"]`): a `u32` element
count followed by that many `u128` values. -/
def readU128Vec (b : Bytes) : Except DecodeErr (List Nat × Bytes) := do
  let (len, rest) ← readU32 b
  readU128s len rest

/-- Decoded `MarketState` record of state.ts (borsh field order). -/
structure MarketStateRec where
  tag : Nat
  baseMint : Bytes
  quoteMint : Bytes
  baseVault : Bytes
  quoteVault : Bytes
  orderbook : Bytes
  admin : Bytes
  creationTimestamp : Nat
  baseVolume : Nat
  quoteVolume : Nat
  accumulatedFees : Nat
  minBaseOrderSize : Nat
  signerNonce : Nat
  feeTierThresholds : List Nat
  feeTierTakerBpsRates : List Nat
  feeTierMakerBpsRates : List Nat
deriving DecidableEq

/-- Field-by-field borsh decode of `MarketState.schema` of state.ts. -/
def decodeMarketStateStruct (b : Bytes) : Except DecodeErr (MarketStateRec × Bytes) := do
  let (tag, b) ← readU64 b
  let (baseMint, b) ← readBytes 32 b
  let (quoteMint, b) ← readBytes 32 b
  let (baseVault, b) ← readBytes 32 b
  let (quoteVault, b) ← readBytes 32 b
  let (orderbook, b) ← readBytes 32 b
  let (admin, b) ← readBytes 32 b
  let (creationTimestamp, b) ← readU64 b
  let (baseVolume, b) ← readU64 b
  let (quoteVolume, b) ← readU64 b
  let (accumulatedFees, b) ← readU64 b
  let (minBaseOrderSize, b) ← readU64 b
  let (signerNonce, b) ← readU64 b
  let (feeTierThresholds, b) ← readU64Array 6 b
  let (feeTierTakerBpsRates, b) ← readU64Array 7 b
  let (feeTierMakerBpsRates, b) ← readU64Array 7 b
  .ok (⟨tag, baseMint, quoteMint, baseVault, quoteVault, orderbook, admin,
    creationTimestamp, baseVolume, quoteVolume, accumulatedFees, minBaseOrderSize,
    signerNonce, feeTierThresholds, feeTierTakerBpsRates, feeTierMakerBpsRates⟩, b)

/-- Embedding of `MarketState.retrieve` of state.ts: borsh
`deserialize` (checked), which fails when bytes remain after the last
field. -/
def marketStateDeserialize (b : Bytes) : Except DecodeErr MarketStateRec := do
  let (rec, rest) ← decodeMarketStateStruct b
  if rest = [] then .ok rec else .error .trailingBytes

/-- Decoded `UserAccount` record of state.ts (borsh field order). -/
structure UserAccountRec where
  tag : Nat
  market : Bytes
  owner : Bytes
  baseTokenFree : Nat
  baseTokenLocked : Nat
  quoteTokenFree : Nat
  quoteTokenLocked : Nat
  accumulatedRebates : Nat
  accumulatedMakerQuoteVolume : Nat
  accumulatedMakerBaseVolume : Nat
  accumulatedTakerQuoteVolume : Nat
  accumulatedTakerBaseVolume : Nat
  orders : List Nat
deriving DecidableEq

/-- Field-by-field borsh decode of `UserAccount.schema` of state.ts
(including the `u32` padding field before the dynamic orders array). -/
def decodeUserAccountStruct (b : Bytes) : Except DecodeErr (UserAccountRec × Bytes) := do
  let (tag, b) ← readU64 b
  let (market, b) ← readBytes 32 b
  let (owner, b) ← readBytes 32 b
  let (baseTokenFree, b) ← readU64 b
  let (baseTokenLocked, b) ← readU64 b
  let (quoteTokenFree, b) ← readU64 b
  let (quoteTokenLocked, b) ← readU64 b
  let (accumulatedRebates, b) ← readU64 b
  let (accumulatedMakerQuoteVolume, b) ← readU64 b
  let (accumulatedMakerBaseVolume, b) ← readU64 b
  let (accumulatedTakerQuoteVolume, b) ← readU64 b
  let (accumulatedTakerBaseVolume, b) ← readU64 b
  let (_padding, b) ← readU32 b
  let (orders, b) ← readU128Vec b
  .ok (⟨tag, market, owner, baseTokenFree, baseTokenLocked, quoteTokenFree,
    quoteTokenLocked, accumulatedRebates, accumulatedMakerQuoteVolume,
    accumulatedMakerBaseVolume, accumulatedTakerQuoteVolume,
    accumulatedTakerBaseVolume, orders⟩, b)

/-- Embedding of `UserAccount.retrieve` of state.ts: borsh
`deserializeUnchecked`, which ignores any bytes remaining after the
last field. -/
def userAccountDeserializeUnchecked (b : Bytes) : Except DecodeErr UserAccountRec := do
  let (rec, _) ← decodeUserAccountStruct b
  .ok rec

/-! ## OpenOrders view (src/js/src/openOrders.ts) -/

/-- The `OpenOrders` class fields of openOrders.ts. -/
structure OpenOrders where
  address : Bytes
  market : Bytes
  owner : Bytes
  baseTokenFree : Nat
  baseTokenTotal : Nat
  quoteTokenFree : Nat
  quoteTokenTotal : Nat
  orders : List Nat
  accumulatedRebates : Nat
deriving DecidableEq

/-- The pure construction step of `OpenOrders.load` of openOrders.ts,
applied to the already-retrieved user-account record:
`baseTokenTotal = baseTokenLocked.add(baseTokenFree)` and
`quoteTokenTotal = quoteTokenFree.add(quoteTokenLocked)`; the free
balances, orders and rebates are passed through unchanged. -/
def openOrdersLoad (address market owner : Bytes) (ua : UserAccountRec) : OpenOrders :=
  { address := address
    market := market
    owner := owner
    baseTokenFree := ua.baseTokenFree
    baseTokenTotal := ua.baseTokenLocked + ua.baseTokenFree
    quoteTokenFree := ua.quoteTokenFree
    quoteTokenTotal := ua.quoteTokenFree + ua.quoteTokenLocked
    orders := ua.orders
    accumulatedRebates := ua.accumulatedRebates }

/-! ## Address resolution (src/js/src/bindings.ts lines 58-61,
src/js/src/market.ts lines 291-297) -/

/-- One candidate of the program-derived-address search:
the platform hash of `(seeds, bump, programId)`.  The concrete
SHA-256-based hash lives in the external `@solana/web3.js`
dependency, so it is a parameter of the embedding. -/
def pdaCandidate (hash : List Bytes → Nat → Bytes → Bytes)
    (seeds : List Bytes) (bump : Nat) (programId : Bytes) : Bytes :=
  hash seeds bump programId

/-- The bump-seed search of `PublicKey.findProgramAddress`: try bumps
255, 254, ..., 0 and return the first candidate accepted by the
off-curve test, together with its bump. -/
def findProgramAddressFrom (hash : List Bytes → Nat → Bytes → Bytes)
    (offCurve : Bytes → Bool) (seeds : List Bytes) (programId : Bytes) :
    Nat → Option (Bytes × Nat)
  | 0 => none
  | bump + 1 =>
    let candidate := pdaCandidate hash seeds bump programId
    if offCurve candidate then some (candidate, bump)
    else findProgramAddressFrom hash offCurve seeds programId bump

/-- Deterministic model of `PublicKey.findProgramAddress(seeds,
programId)`, parameterized by the external hash and curve test. -/
def findProgramAddress (hash : List Bytes → Nat → Bytes → Bytes)
    (offCurve : Bytes → Bool) (seeds : List Bytes) (programId : Bytes) :
    Option (Bytes × Nat) :=
  findProgramAddressFrom hash offCurve seeds programId 256

/-- Embedding of the market-signer derivation of bindings.ts
(createMarket, lines 58-61): `findProgramAddress` with the single seed
`marketAddress`. -/
def deriveMarketSigner (hash : List Bytes → Nat → Bytes → Bytes)
    (offCurve : Bytes → Bool) (marketAddress programId : Bytes) :
    Option (Bytes × Nat) :=
  findProgramAddress hash offCurve [marketAddress] programId

/-- Embedding of `Market.findOpenOrdersAccountForOwner` of market.ts
(lines 291-297): `findProgramAddress` with the seed sequence
`(marketAddress, ownerAddress)`, keeping the address. -/
def findOpenOrdersAccountForOwner (hash : List Bytes → Nat → Bytes → Bytes)
    (offCurve : Bytes → Bool) (marketAddress owner programId : Bytes) :
    Option Bytes :=
  (findProgramAddress hash offCurve [marketAddress, owner] programId).map Prod.fst

end DexV4

namespace DexV4

/-! ### Reduction lemmas for the Except monad and the byte readers -/

@[simp] theorem ok_bind {ε α β : Type} (a : α) (f : α → Except ε β) :
    (Except.ok a >>= f : Except ε β) = f a := rfl

@[simp] theorem error_bind {ε α β : Type} (e : ε) (f : α → Except ε β) :
    (Except.error e >>= f : Except ε β) = .error e := rfl

theorem readBytes_ok {n : Nat} {b v rest : Bytes} (h : readBytes n b = .ok (v, rest)) :
    n ≤ b.length ∧ v = b.take n ∧ rest = b.drop n := by
  unfold readBytes at h
  split at h <;> simp_all

theorem readU64_ok {b : Bytes} {v : Nat} {rest : Bytes}
    (h : readU64 b = .ok (v, rest)) :
    8 ≤ b.length ∧ v = leNat (b.take 8) ∧ rest = b.drop 8 := by
  unfold readU64 at h
  cases h1 : readBytes 8 b with
  | error e => simp [h1] at h
  | ok p =>
    obtain ⟨bs, r⟩ := p
    obtain ⟨hle, rfl, rfl⟩ := readBytes_ok h1
    simp only [h1, ok_bind] at h
    cases h
    exact ⟨hle, rfl, rfl⟩

theorem readU32_ok {b : Bytes} {v : Nat} {rest : Bytes}
    (h : readU32 b = .ok (v, rest)) :
    4 ≤ b.length ∧ v = leNat (b.take 4) ∧ rest = b.drop 4 := by
  unfold readU32 at h
  cases h1 : readBytes 4 b with
  | error e => simp [h1] at h
  | ok p =>
    obtain ⟨bs, r⟩ := p
    obtain ⟨hle, rfl, rfl⟩ := readBytes_ok h1
    simp only [h1, ok_bind] at h
    cases h
    exact ⟨hle, rfl, rfl⟩

theorem readU128_ok {b : Bytes} {v : Nat} {rest : Bytes}
    (h : readU128 b = .ok (v, rest)) :
    16 ≤ b.length ∧ v = leNat (b.take 16) ∧ rest = b.drop 16 := by
  unfold readU128 at h
  cases h1 : readBytes 16 b with
  | error e => simp [h1] at h
  | ok p =>
    obtain ⟨bs, r⟩ := p
    obtain ⟨hle, rfl, rfl⟩ := readBytes_ok h1
    simp only [h1, ok_bind] at h
    cases h
    exact ⟨hle, rfl, rfl⟩

theorem readU64Array_ok :
    ∀ {n : Nat} {b : Bytes} {vs : List Nat} {rest : Bytes},
    readU64Array n b = .ok (vs, rest) →
    8 * n ≤ b.length ∧ vs.length = n ∧ rest = b.drop (8 * n) := by
  intro n
  induction n with
  | zero => intro b vs rest h; unfold readU64Array at h; cases h; simp
  | succ n ih =>
    intro b vs rest h
    unfold readU64Array at h
    cases h1 : readU64 b with
    | error e => simp [h1] at h
    | ok p =>
      obtain ⟨v, r⟩ := p
      obtain ⟨hle, rfl, rfl⟩ := readU64_ok h1
      simp only [h1, ok_bind] at h
      cases h2 : readU64Array n (b.drop 8) with
      | error e => simp [h2] at h
      | ok q =>
        obtain ⟨vs2, r2⟩ := q
        obtain ⟨hle2, hlen2, rfl⟩ := ih h2
        simp only [h2, ok_bind] at h
        cases h
        simp only [List.length_drop] at hle2
        refine ⟨by omega, by simp [hlen2], ?_⟩
        rw [List.drop_drop]
        congr 1
        omega

theorem readU128s_ok :
    ∀ {n : Nat} {b : Bytes} {vs : List Nat} {rest : Bytes},
    readU128s n b = .ok (vs, rest) →
    16 * n ≤ b.length ∧ vs.length = n ∧ rest = b.drop (16 * n) := by
  intro n
  induction n with
  | zero => intro b vs rest h; unfold readU128s at h; cases h; simp
  | succ n ih =>
    intro b vs rest h
    unfold readU128s at h
    cases h1 : readU128 b with
    | error e => simp [h1] at h
    | ok p =>
      obtain ⟨v, r⟩ := p
      obtain ⟨hle, rfl, rfl⟩ := readU128_ok h1
      simp only [h1, ok_bind] at h
      cases h2 : readU128s n (b.drop 16) with
      | error e => simp [h2] at h
      | ok q =>
        obtain ⟨vs2, r2⟩ := q
        obtain ⟨hle2, hlen2, rfl⟩ := ih h2
        simp only [h2, ok_bind] at h
        cases h
        simp only [List.length_drop] at hle2
        refine ⟨by omega, by simp [hlen2], ?_⟩
        rw [List.drop_drop]
        congr 1
        omega

theorem readU128Vec_ok {b : Bytes} {vs : List Nat} {rest : Bytes}
    (h : readU128Vec b = .ok (vs, rest)) :
    4 + 16 * vs.length ≤ b.length ∧ rest = b.drop (4 + 16 * vs.length) := by
  unfold readU128Vec at h
  cases h1 : readU32 b with
  | error e => simp [h1] at h
  | ok p =>
    obtain ⟨len, r⟩ := p
    obtain ⟨hle, hlen, rfl⟩ := readU32_ok h1
    simp only [h1, ok_bind] at h
    obtain ⟨hle2, hlen2, rfl⟩ := readU128s_ok h
    simp only [List.length_drop] at hle2
    subst hlen2
    refine ⟨by omega, ?_⟩
    rw [List.drop_drop]

/-! ### Theorems on the fee schedule -/

/-- C3: the fee-tier lookup satisfies the boundary values: any MSRM
balance of at least 1 yields tier 6 for every SRM balance; the pair
(srm 0, msrm 0) yields tier 0; and (srm 100000, msrm 0) yields tier 4
under the ascending threshold table. -/
theorem getFeeTier_boundary_values :
    (∀ srmBalance msrmBalance : ℚ, 1 ≤ msrmBalance →
      getFeeTier msrmBalance srmBalance = 6) ∧
    getFeeTier 0 0 = 0 ∧
    getFeeTier 0 100000 = 4 := by
  refine ⟨fun srmBalance msrmBalance h => ?_, by decide, by decide⟩
  simp [getFeeTier, h]

theorem getFeeTier_boundary_values_witness :
    (1 : ℚ) ≤ 5 ∧ getFeeTier 5 7 = 6 :=
  ⟨by norm_num, getFeeTier_boundary_values.1 7 5 (by norm_num)⟩

/-- C4 counterexample: a negative SRM balance is not rejected; the
lookup silently returns the out-of-range value -1, and a negative MSRM
balance silently falls through to tier 0. -/
theorem getFeeTier_negative_not_rejected :
    getFeeTier 0 (-1) = -1 ∧ getFeeTier (-3) 0 = 0 := by
  constructor <;> decide

/-- C4 amended: negative balances are accepted rather than rejected:
for every negative SRM balance (with MSRM below 1) the lookup returns
-1, which is not a valid tier, and for every negative MSRM balance
with SRM balance 0 it returns the default tier 0. -/
theorem getFeeTier_negative_behaviour :
    (∀ srmBalance msrmBalance : ℚ, srmBalance < 0 → msrmBalance < 1 →
      getFeeTier msrmBalance srmBalance = -1) ∧
    (∀ msrmBalance : ℚ, msrmBalance < 0 → getFeeTier msrmBalance 0 = 0) := by
  constructor
  · intro srmBalance msrmBalance hs hm
    have hm1 : ¬ (1 : ℚ) ≤ msrmBalance := not_le.mpr hm
    simp only [getFeeTier, if_neg hm1, srmThresholds]
    rw [List.find?]
    simp [FeeThreshold.ltThresh, hs]
  · intro msrmBalance hm
    have hm1 : ¬ (1 : ℚ) ≤ msrmBalance := not_le.mpr (lt_trans hm (by norm_num))
    simp only [getFeeTier, if_neg hm1]
    decide

theorem getFeeTier_negative_behaviour_witness :
    ((-2 : ℚ) < 0 ∧ (0 : ℚ) < 1 ∧ getFeeTier 0 (-2) = -1) ∧
    ((-2 : ℚ) < 0 ∧ getFeeTier (-2) 0 = 0) :=
  ⟨⟨by norm_num, by norm_num,
      getFeeTier_negative_behaviour.1 (-2) 0 (by norm_num) (by norm_num)⟩,
   ⟨by norm_num, getFeeTier_negative_behaviour.2 (-2) (by norm_num)⟩⟩

/-! ### Theorems on the instruction codec -/

theorem bufLe_total : ∀ a b : Bytes, (bufLe a b || bufLe b a) = true
  | [], b => by cases b <;> simp [bufLe]
  | a :: as, [] => by simp [bufLe]
  | a :: as, b :: bs => by
    by_cases h1 : a < b
    · simp [bufLe, h1]
    · by_cases h2 : b < a
      · simp [bufLe, h1, h2]
      · have hab : a = b := le_antisymm (not_lt.mp h2) (not_lt.mp h1)
        subst hab
        simpa [bufLe] using bufLe_total as bs

theorem bufLe_trans :
    ∀ a b c : Bytes, bufLe a b = true → bufLe b c = true → bufLe a c = true
  | [], _, _, _, _ => rfl
  | _ :: _, [], _, h1, _ => by simp [bufLe] at h1
  | _ :: _, _ :: _, [], _, h2 => by simp [bufLe] at h2
  | a :: as, b :: bs, c :: cs, h1, h2 => by
    by_cases hab : a < b
    · by_cases hbc : b < c
      · simp [bufLe, lt_trans hab hbc]
      · by_cases hcb : c < b
        · simp [bufLe, hbc, hcb] at h2
        · have hbc2 : b = c := le_antisymm (not_lt.mp hcb) (not_lt.mp hbc)
          subst hbc2
          simp [bufLe, hab]
    · by_cases hba : b < a
      · simp [bufLe, hab, hba] at h1
      · have hab2 : a = b := le_antisymm (not_lt.mp hba) (not_lt.mp hab)
        subst hab2
        simp only [bufLe, lt_irrefl, if_neg (lt_irrefl a)] at h1
        by_cases hac : a < c
        · simp [bufLe, hac]
        · by_cases hca : c < a
          · simp [bufLe, hac, hca] at h2
          · have hac2 : a = c := le_antisymm (not_lt.mp hca) (not_lt.mp hac)
            subst hac2
            simp only [bufLe, lt_irrefl, if_neg (lt_irrefl a)] at h2 ⊢
            exact bufLe_trans as bs cs h1 h2

theorem map_pubkey_of_roles : ∀ l : List Bytes,
    (l.map (fun k => (⟨k, false, true⟩ : AccountKey))).map AccountKey.pubkey = l := by
  intro l
  induction l with
  | nil => rfl
  | cons x xs ih => simp only [List.map_cons, ih]

/-- C1: the ConsumeEvents encoding places the four fixed roles
(market, orderbook, event queue, reward target) first and then the
given user accounts reordered into ascending raw-byte order: the
emitted tail is a permutation of the input list, pairwise ascending
under the byte comparison, and all-writable non-signer. -/
theorem consumeEvents_sorts_user_accounts
    (programId market orderbook eventQueue rewardTarget : Bytes)
    (userAccounts : List Bytes) (maxIterations : Nat) :
    (consumeEvents programId market orderbook eventQueue rewardTarget
        userAccounts maxIterations).keys.take 4 =
      [⟨market, false, true⟩, ⟨orderbook, false, true⟩,
       ⟨eventQueue, false, true⟩, ⟨rewardTarget, false, true⟩] ∧
    (((consumeEvents programId market orderbook eventQueue rewardTarget
        userAccounts maxIterations).keys.drop 4).map AccountKey.pubkey).Perm
      userAccounts ∧
    List.Pairwise (fun a b => bufLe a b = true)
      (((consumeEvents programId market orderbook eventQueue rewardTarget
        userAccounts maxIterations).keys.drop 4).map AccountKey.pubkey) ∧
    ∀ k ∈ (consumeEvents programId market orderbook eventQueue rewardTarget
        userAccounts maxIterations).keys.drop 4,
      k.isSigner = false ∧ k.isWritable = true := by
  have hkeys :
      (consumeEvents programId market orderbook eventQueue rewardTarget
        userAccounts maxIterations).keys =
      [⟨market, false, true⟩, ⟨orderbook, false, true⟩,
       ⟨eventQueue, false, true⟩, ⟨rewardTarget, false, true⟩] ++
      (userAccounts.mergeSort bufLe).map (fun k => (⟨k, false, true⟩ : AccountKey)) := rfl
  rw [hkeys]
  have hmap : (((userAccounts.mergeSort bufLe).map
      (fun k => (⟨k, false, true⟩ : AccountKey))).map AccountKey.pubkey) =
      userAccounts.mergeSort bufLe := map_pubkey_of_roles _
  have hdrop : (([⟨market, false, true⟩, ⟨orderbook, false, true⟩,
       ⟨eventQueue, false, true⟩, ⟨rewardTarget, false, true⟩] : List AccountKey) ++
      (userAccounts.mergeSort bufLe).map (fun k => (⟨k, false, true⟩ : AccountKey))).drop 4 =
      (userAccounts.mergeSort bufLe).map (fun k => (⟨k, false, true⟩ : AccountKey)) := rfl
  refine ⟨rfl, ?_, ?_, ?_⟩
  · rw [hdrop, hmap]
    exact List.mergeSort_perm userAccounts bufLe
  · rw [hdrop, hmap]
    exact List.sorted_mergeSort bufLe_trans bufLe_total userAccounts
  · intro k hk
    rw [hdrop] at hk
    simp only [List.mem_map] at hk
    obtain ⟨x, _, rfl⟩ := hk
    exact ⟨rfl, rfl⟩

/-- C9: the NewOrder encoding appends the discount-token role exactly
when the optional discount-token account is provided: without it the
account list has the twelve fixed roles, and with it the same twelve
roles followed by a final non-signer non-writable role for the
discount account. -/
theorem newOrder_discount_role_iff_provided
    (programId splTokenProgram systemProgram market orderbook eventQueue bids asks
      baseVault quoteVault user userTokenAccount userOwner d : Bytes)
    (limitPrice maxBaseQty maxQuoteQty matchLimit side orderType selfTradeBehavior : Nat) :
    (newOrderGetInstruction programId splTokenProgram systemProgram market orderbook
        eventQueue bids asks baseVault quoteVault user userTokenAccount userOwner
        none limitPrice maxBaseQty maxQuoteQty matchLimit
        side orderType selfTradeBehavior).keys.length = 12 ∧
    (newOrderGetInstruction programId splTokenProgram systemProgram market orderbook
        eventQueue bids asks baseVault quoteVault user userTokenAccount userOwner
        (some d) limitPrice maxBaseQty maxQuoteQty matchLimit
        side orderType selfTradeBehavior).keys =
      (newOrderGetInstruction programId splTokenProgram systemProgram market orderbook
        eventQueue bids asks baseVault quoteVault user userTokenAccount userOwner
        none limitPrice maxBaseQty maxQuoteQty matchLimit
        side orderType selfTradeBehavior).keys ++ [(⟨d, false, false⟩ : AccountKey)] ∧
    (newOrderGetInstruction programId splTokenProgram systemProgram market orderbook
        eventQueue bids asks baseVault quoteVault user userTokenAccount userOwner
        (some d) limitPrice maxBaseQty maxQuoteQty matchLimit
        side orderType selfTradeBehavior).keys.length = 13 ∧
    (newOrderGetInstruction programId splTokenProgram systemProgram market orderbook
        eventQueue bids asks baseVault quoteVault user userTokenAccount userOwner
        (some d) limitPrice maxBaseQty maxQuoteQty matchLimit
        side orderType selfTradeBehavior).keys.getLast? =
      some (⟨d, false, false⟩ : AccountKey) := by
  refine ⟨rfl, rfl, rfl, rfl⟩

/-! ### Theorems on the OpenOrders view -/

/-- C10: the OpenOrders view built from a decoded user account reports
the base and quote totals as the sums of the free and locked balances
of the record, and passes the free balances, order list and
accumulated rebates through unchanged. -/
theorem openOrders_totals_are_derived_sums (address market owner : Bytes)
    (ua : UserAccountRec) :
    (openOrdersLoad address market owner ua).baseTokenTotal =
      ua.baseTokenFree + ua.baseTokenLocked ∧
    (openOrdersLoad address market owner ua).quoteTokenTotal =
      ua.quoteTokenFree + ua.quoteTokenLocked ∧
    (openOrdersLoad address market owner ua).baseTokenFree = ua.baseTokenFree ∧
    (openOrdersLoad address market owner ua).quoteTokenFree = ua.quoteTokenFree ∧
    (openOrdersLoad address market owner ua).orders = ua.orders ∧
    (openOrdersLoad address market owner ua).accumulatedRebates =
      ua.accumulatedRebates :=
  ⟨Nat.add_comm ua.baseTokenLocked ua.baseTokenFree, rfl, rfl, rfl, rfl, rfl⟩

/-! ### Theorems on the fixed-point converters -/

theorem bnNew_eq_floor {q : ℚ} (h : 0 ≤ q) : bnNew q = ⌊q⌋ := by
  rw [Rat.floor_def, bnNew]
  exact Int.tdiv_eq_ediv (Rat.num_nonneg.mpr h) (Int.ofNat_nonneg _)

theorem bnNew_le {q : ℚ} (h : 0 ≤ q) : (bnNew q : ℚ) ≤ q := by
  rw [bnNew_eq_floor h]
  exact Int.floor_le q

theorem bnNew_nonneg {q : ℚ} (h : 0 ≤ q) : 0 ≤ bnNew q := by
  rw [bnNew_eq_floor h]
  exact Int.floor_nonneg.mpr h

/-- C2: for a positive user-interface price on a market with positive
tick size (and well-formed nonnegative currency multipliers, the quote
one nonzero), the fixed-point price is an exact multiple of the tick
size, is at most the naively-scaled value, and is obtained from the
unrounded fixed-point value by subtracting the division remainder,
hence never rounds upward. -/
theorem computeFp32Price_tick_aligned_rounded_down (m : Market) (uiPrice : ℚ)
    (hp : 0 < uiPrice) (ht : 0 < m.tickSize)
    (hb : 0 ≤ m.baseCurrencyMultiplier) (hq : 0 < m.quoteCurrencyMultiplier) :
    m.tickSize ∣ computeFp32Price m uiPrice ∧
    (computeFp32Price m uiPrice : ℚ) ≤ specNaiveScaledPrice m uiPrice ∧
    computeFp32Price m uiPrice =
      fp32UnroundedPrice m uiPrice -
        (fp32UnroundedPrice m uiPrice).emod m.tickSize ∧
    computeFp32Price m uiPrice ≤ fp32UnroundedPrice m uiPrice := by
  set x : ℚ := fp32ScaledInput m uiPrice with hxdef
  have hx : 0 ≤ x := by
    rw [hxdef, fp32ScaledInput]
    have h10 : (0:ℚ) < 10 ^ (m.quoteDecimals - m.baseDecimals) :=
      zpow_pos (by norm_num) _
    have hdiv : (0:ℚ) ≤ (m.baseCurrencyMultiplier : ℚ) / (m.quoteCurrencyMultiplier : ℚ) :=
      div_nonneg (by exact_mod_cast hb) (by exact_mod_cast hq.le)
    exact mul_nonneg (mul_nonneg hp.le hdiv) h10.le
  have hfrac : (0:ℚ) ≤ 2 ^ 32 * (x - ⌊x⌋) := by
    have := Int.floor_le x
    have h1 : (0:ℚ) ≤ x - ⌊x⌋ := by linarith
    positivity
  have hprice : fp32UnroundedPrice m uiPrice =
      bnNew x * 2 ^ 32 + bnNew (2 ^ 32 * (x - ⌊x⌋)) := rfl
  set price : ℤ := fp32UnroundedPrice m uiPrice with hpricedef
  have hcfp : computeFp32Price m uiPrice = price - price.emod m.tickSize := rfl
  have hrem : 0 ≤ price.emod m.tickSize := Int.emod_nonneg price (ne_of_gt ht)
  have hmod : price % m.tickSize = price.emod m.tickSize := rfl
  have hdvd : m.tickSize ∣ computeFp32Price m uiPrice := by
    rw [hcfp]
    refine ⟨price / m.tickSize, ?_⟩
    have := Int.ediv_add_emod price m.tickSize
    linarith
  have hple : (price : ℚ) ≤ x * 2 ^ 32 := by
    rw [hprice]
    push_cast
    have h1 : (bnNew x : ℚ) ≤ x := bnNew_le hx
    have h2 : (bnNew (2 ^ 32 * (x - ⌊x⌋)) : ℚ) ≤ 2 ^ 32 * (x - ⌊x⌋) := bnNew_le hfrac
    have h3 : (bnNew x : ℚ) = (⌊x⌋ : ℚ) := by
      rw [bnNew_eq_floor hx]
    nlinarith [Int.floor_le x]
  refine ⟨hdvd, ?_, hcfp, ?_⟩
  · rw [hcfp]
    have hnaive : specNaiveScaledPrice m uiPrice = x * 2 ^ 32 := rfl
    rw [hnaive]
    have hremq : (0:ℚ) ≤ (price.emod m.tickSize : ℚ) := by exact_mod_cast hrem
    push_cast
    linarith
  · rw [hcfp]
    linarith

theorem computeFp32Price_tick_aligned_rounded_down_witness :
    (0:ℚ) < 5/2 ∧ (0:ℤ) < 2 ∧ (0:ℤ) ≤ 1 ∧ (0:ℤ) < 1 ∧
    ((⟨2, 0, 0, 1, 1, 1⟩ : Market).tickSize ∣
        computeFp32Price ⟨2, 0, 0, 1, 1, 1⟩ (5/2) ∧
      (computeFp32Price ⟨2, 0, 0, 1, 1, 1⟩ (5/2) : ℚ) ≤
        specNaiveScaledPrice ⟨2, 0, 0, 1, 1, 1⟩ (5/2) ∧
      computeFp32Price ⟨2, 0, 0, 1, 1, 1⟩ (5/2) =
        fp32UnroundedPrice ⟨2, 0, 0, 1, 1, 1⟩ (5/2) -
          (fp32UnroundedPrice ⟨2, 0, 0, 1, 1, 1⟩ (5/2)).emod
            (⟨2, 0, 0, 1, 1, 1⟩ : Market).tickSize ∧
      computeFp32Price ⟨2, 0, 0, 1, 1, 1⟩ (5/2) ≤
        fp32UnroundedPrice ⟨2, 0, 0, 1, 1, 1⟩ (5/2)) :=
  ⟨by norm_num, by norm_num, by norm_num, by norm_num,
    computeFp32Price_tick_aligned_rounded_down ⟨2, 0, 0, 1, 1, 1⟩ (5/2)
      (by norm_num) (by norm_num) (by norm_num) (by norm_num)⟩

/-- C7 counterexample: negative inputs are not rejected by the
converters: a negative price and a negative size flow through and
produce (negative) results. -/
theorem conversion_negative_inputs_not_rejected :
    computeFp32PriceChecked ⟨1, 0, 0, 1, 1, 1⟩ (-1) = .ok (-4294967296) ∧
    computeSizeChecked ⟨1, 0, 0, 1, 1, 2⟩ (-4) = .ok (-4) := by
  constructor
  · have hx : fp32ScaledInput ⟨1, 0, 0, 1, 1, 1⟩ (-1) = -1 := by
      unfold fp32ScaledInput
      norm_num
    have h1 : bnNew (-1) = -1 := by decide
    have h0 : bnNew 0 = 0 := by decide
    have hup : fp32UnroundedPrice ⟨1, 0, 0, 1, 1, 1⟩ (-1) = -4294967296 := by
      simp only [fp32UnroundedPrice, hx]
      norm_num [h1, h0]
    have hval : computeFp32Price ⟨1, 0, 0, 1, 1, 1⟩ (-1) = -4294967296 := by
      simp only [computeFp32Price, hup]
      norm_num [show ((-4294967296 : ℤ)).emod 1 = 0 from by decide]
    simp [computeFp32PriceChecked, hval]
  · simp only [computeSizeChecked]
    norm_num
    decide

/-- C7 amended: a zero tick size or zero minimum order size makes the
converter fail fast with a thrown error (the bn.js assertion on a zero
umod divisor, and the assertion in `new BN(NaN)` after `% 0`), but
negative price or size inputs are not rejected: with a nonzero divisor
the converters always return a value. -/
theorem conversion_zero_divisor_fails_fast :
    (∀ (m : Market) (p : ℚ), m.tickSize = 0 →
      computeFp32PriceChecked m p = .error .bnZeroDivisorAssert) ∧
    (∀ (m : Market) (s : ℤ), m.minOrderSize = 0 →
      computeSizeChecked m s = .error .bnNanAssert) ∧
    (∀ (m : Market) (p : ℚ), m.tickSize ≠ 0 →
      computeFp32PriceChecked m p = .ok (computeFp32Price m p)) ∧
    (∀ (m : Market) (s : ℤ), m.minOrderSize ≠ 0 →
      computeSizeChecked m s = .ok (s - Int.tmod s m.minOrderSize)) := by
  refine ⟨fun m p h => ?_, fun m s h => ?_, fun m p h => ?_, fun m s h => ?_⟩ <;>
    simp [computeFp32PriceChecked, computeSizeChecked, h]

theorem conversion_zero_divisor_fails_fast_witness :
    ((⟨0, 0, 0, 1, 1, 0⟩ : Market).tickSize = 0 ∧
      computeFp32PriceChecked ⟨0, 0, 0, 1, 1, 0⟩ 1 = .error .bnZeroDivisorAssert) ∧
    ((⟨0, 0, 0, 1, 1, 0⟩ : Market).minOrderSize = 0 ∧
      computeSizeChecked ⟨0, 0, 0, 1, 1, 0⟩ 5 = .error .bnNanAssert) ∧
    ((⟨1, 0, 0, 1, 1, 2⟩ : Market).tickSize ≠ 0 ∧
      computeFp32PriceChecked ⟨1, 0, 0, 1, 1, 2⟩ (-1) =
        .ok (computeFp32Price ⟨1, 0, 0, 1, 1, 2⟩ (-1))) ∧
    ((⟨1, 0, 0, 1, 1, 2⟩ : Market).minOrderSize ≠ 0 ∧
      computeSizeChecked ⟨1, 0, 0, 1, 1, 2⟩ (-4) =
        .ok ((-4) - Int.tmod (-4) (⟨1, 0, 0, 1, 1, 2⟩ : Market).minOrderSize)) :=
  ⟨⟨rfl, conversion_zero_divisor_fails_fast.1 _ 1 rfl⟩,
   ⟨rfl, conversion_zero_divisor_fails_fast.2.1 _ 5 rfl⟩,
   ⟨by decide, conversion_zero_divisor_fails_fast.2.2.1 _ (-1) (by decide)⟩,
   ⟨by decide, conversion_zero_divisor_fails_fast.2.2.2 _ (-4) (by decide)⟩⟩

/-! ### Theorems on the state decoder -/

theorem bind_ok_iff {ε α β : Type} {e : Except ε α} {f : α → Except ε β} {v : β} :
    (e >>= f) = .ok v ↔ ∃ a, e = .ok a ∧ f a = .ok v := by
  cases e <;> simp

theorem decodeMarketStateStruct_ok {b : Bytes} {r : MarketStateRec} {rest : Bytes}
    (h : decodeMarketStateStruct b = .ok (r, rest)) :
    408 ≤ b.length ∧ rest = b.drop 408 ∧ r.tag = leNat (b.take 8) := by
  unfold decodeMarketStateStruct at h
  rw [bind_ok_iff] at h
  obtain ⟨⟨tag, b1⟩, h1, h⟩ := h
  obtain ⟨l1, htag, rfl⟩ := readU64_ok h1
  rw [bind_ok_iff] at h
  obtain ⟨⟨f2, b2⟩, h2, h⟩ := h
  obtain ⟨l2, hv2, rfl⟩ := readBytes_ok h2
  rw [bind_ok_iff] at h
  obtain ⟨⟨f3, b3⟩, h3, h⟩ := h
  obtain ⟨l3, hv3, rfl⟩ := readBytes_ok h3
  rw [bind_ok_iff] at h
  obtain ⟨⟨f4, b4⟩, h4, h⟩ := h
  obtain ⟨l4, hv4, rfl⟩ := readBytes_ok h4
  rw [bind_ok_iff] at h
  obtain ⟨⟨f5, b5⟩, h5, h⟩ := h
  obtain ⟨l5, hv5, rfl⟩ := readBytes_ok h5
  rw [bind_ok_iff] at h
  obtain ⟨⟨f6, b6⟩, h6, h⟩ := h
  obtain ⟨l6, hv6, rfl⟩ := readBytes_ok h6
  rw [bind_ok_iff] at h
  obtain ⟨⟨f7, b7⟩, h7, h⟩ := h
  obtain ⟨l7, hv7, rfl⟩ := readBytes_ok h7
  rw [bind_ok_iff] at h
  obtain ⟨⟨f8, b8⟩, h8, h⟩ := h
  obtain ⟨l8, hv8, rfl⟩ := readU64_ok h8
  rw [bind_ok_iff] at h
  obtain ⟨⟨f9, b9⟩, h9, h⟩ := h
  obtain ⟨l9, hv9, rfl⟩ := readU64_ok h9
  rw [bind_ok_iff] at h
  obtain ⟨⟨f10, b10⟩, h10, h⟩ := h
  obtain ⟨l10, hv10, rfl⟩ := readU64_ok h10
  rw [bind_ok_iff] at h
  obtain ⟨⟨f11, b11⟩, h11, h⟩ := h
  obtain ⟨l11, hv11, rfl⟩ := readU64_ok h11
  rw [bind_ok_iff] at h
  obtain ⟨⟨f12, b12⟩, h12, h⟩ := h
  obtain ⟨l12, hv12, rfl⟩ := readU64_ok h12
  rw [bind_ok_iff] at h
  obtain ⟨⟨f13, b13⟩, h13, h⟩ := h
  obtain ⟨l13, hv13, rfl⟩ := readU64_ok h13
  rw [bind_ok_iff] at h
  obtain ⟨⟨f14, b14⟩, h14, h⟩ := h
  obtain ⟨l14, hn14, rfl⟩ := readU64Array_ok h14
  rw [bind_ok_iff] at h
  obtain ⟨⟨f15, b15⟩, h15, h⟩ := h
  obtain ⟨l15, hn15, rfl⟩ := readU64Array_ok h15
  rw [bind_ok_iff] at h
  obtain ⟨⟨f16, b16⟩, h16, h⟩ := h
  obtain ⟨l16, hn16, rfl⟩ := readU64Array_ok h16
  simp only [Except.ok.injEq, Prod.mk.injEq] at h
  obtain ⟨hrec, hrest⟩ := h
  subst hrec
  subst hrest
  simp only [List.length_drop] at l2 l3 l4 l5 l6 l7 l8 l9 l10 l11 l12 l13 l14 l15 l16
  refine ⟨by omega, ?_, htag⟩
  simp only [List.drop_drop]

theorem decodeUserAccountStruct_ok {b : Bytes} {r : UserAccountRec} {rest : Bytes}
    (h : decodeUserAccountStruct b = .ok (r, rest)) :
    152 + 16 * r.orders.length ≤ b.length ∧ r.tag = leNat (b.take 8) ∧
      rest = b.drop (152 + 16 * r.orders.length) := by
  unfold decodeUserAccountStruct at h
  rw [bind_ok_iff] at h
  obtain ⟨⟨tag, b1⟩, h1, h⟩ := h
  obtain ⟨l1, htag, rfl⟩ := readU64_ok h1
  rw [bind_ok_iff] at h
  obtain ⟨⟨f2, b2⟩, h2, h⟩ := h
  obtain ⟨l2, hv2, rfl⟩ := readBytes_ok h2
  rw [bind_ok_iff] at h
  obtain ⟨⟨f3, b3⟩, h3, h⟩ := h
  obtain ⟨l3, hv3, rfl⟩ := readBytes_ok h3
  rw [bind_ok_iff] at h
  obtain ⟨⟨f4, b4⟩, h4, h⟩ := h
  obtain ⟨l4, hv4, rfl⟩ := readU64_ok h4
  rw [bind_ok_iff] at h
  obtain ⟨⟨f5, b5⟩, h5, h⟩ := h
  obtain ⟨l5, hv5, rfl⟩ := readU64_ok h5
  rw [bind_ok_iff] at h
  obtain ⟨⟨f6, b6⟩, h6, h⟩ := h
  obtain ⟨l6, hv6, rfl⟩ := readU64_ok h6
  rw [bind_ok_iff] at h
  obtain ⟨⟨f7, b7⟩, h7, h⟩ := h
  obtain ⟨l7, hv7, rfl⟩ := readU64_ok h7
  rw [bind_ok_iff] at h
  obtain ⟨⟨f8, b8⟩, h8, h⟩ := h
  obtain ⟨l8, hv8, rfl⟩ := readU64_ok h8
  rw [bind_ok_iff] at h
  obtain ⟨⟨f9, b9⟩, h9, h⟩ := h
  obtain ⟨l9, hv9, rfl⟩ := readU64_ok h9
  rw [bind_ok_iff] at h
  obtain ⟨⟨f10, b10⟩, h10, h⟩ := h
  obtain ⟨l10, hv10, rfl⟩ := readU64_ok h10
  rw [bind_ok_iff] at h
  obtain ⟨⟨f11, b11⟩, h11, h⟩ := h
  obtain ⟨l11, hv11, rfl⟩ := readU64_ok h11
  rw [bind_ok_iff] at h
  obtain ⟨⟨f12, b12⟩, h12, h⟩ := h
  obtain ⟨l12, hv12, rfl⟩ := readU64_ok h12
  rw [bind_ok_iff] at h
  obtain ⟨⟨f13, b13⟩, h13, h⟩ := h
  obtain ⟨l13, hv13, rfl⟩ := readU32_ok h13
  rw [bind_ok_iff] at h
  obtain ⟨⟨f14, b14⟩, h14, h⟩ := h
  obtain ⟨l14, hrest14⟩ := readU128Vec_ok h14
  simp only [Except.ok.injEq, Prod.mk.injEq] at h
  obtain ⟨hrec, hrest⟩ := h
  have horders : r.orders = f14 := by rw [← hrec]
  have htagr : r.tag = tag := by rw [← hrec]
  subst hrest
  subst hrest14
  simp only [List.length_drop] at l2 l3 l4 l5 l6 l7 l8 l9 l10 l11 l12 l13 l14
  refine ⟨by rw [horders]; omega, htagr.trans htag, ?_⟩
  rw [horders]
  simp only [List.drop_drop]
  congr 1
  omega

theorem readBytes_drop (n k : Nat) (b : Bytes) (h : k + n ≤ b.length) :
    readBytes n (b.drop k) = .ok ((b.drop k).take n, b.drop (k + n)) := by
  unfold readBytes
  rw [if_pos (by simp only [List.length_drop]; omega), List.drop_drop]

theorem readU64_drop (k : Nat) (b : Bytes) (h : k + 8 ≤ b.length) :
    readU64 (b.drop k) = .ok (leNat ((b.drop k).take 8), b.drop (k + 8)) := by
  unfold readU64
  rw [readBytes_drop 8 k b h]
  rfl

theorem readU64Array_drop :
    ∀ (n k : Nat) (b : Bytes), k + 8 * n ≤ b.length →
    ∃ vs, readU64Array n (b.drop k) = .ok (vs, b.drop (k + 8 * n)) ∧ vs.length = n := by
  intro n
  induction n with
  | zero =>
    intro k b h
    exact ⟨[], by unfold readU64Array; norm_num, rfl⟩
  | succ n ih =>
    intro k b h
    obtain ⟨vs, hvs, hlen⟩ := ih (k + 8) b (by omega)
    refine ⟨leNat ((b.drop k).take 8) :: vs, ?_, by simp [hlen]⟩
    unfold readU64Array
    simp only [readU64_drop k b (by omega), ok_bind, hvs]
    have harith : k + 8 + 8 * n = k + 8 * (n + 1) := by omega
    rw [harith]

theorem decodeMarketStateStruct_complete {b : Bytes} (h : 408 ≤ b.length) :
    ∃ r : MarketStateRec, decodeMarketStateStruct b = .ok (r, b.drop 408) ∧
      r.tag = leNat (b.take 8) := by
  obtain ⟨vsA, hA, _⟩ := readU64Array_drop 6 248 b (by omega)
  obtain ⟨vsB, hB, _⟩ := readU64Array_drop 7 296 b (by omega)
  obtain ⟨vsC, hC, _⟩ := readU64Array_drop 7 352 b (by omega)
  norm_num at hA hB hC
  have e0 : readU64 b = .ok (leNat (b.take 8), b.drop 8) := by
    simpa using readU64_drop 0 b (by omega)
  have e1 : readBytes 32 (b.drop 8) = .ok ((b.drop 8).take 32, b.drop 40) := by
    simpa using readBytes_drop 32 8 b (by omega)
  have e2 : readBytes 32 (b.drop 40) = .ok ((b.drop 40).take 32, b.drop 72) := by
    simpa using readBytes_drop 32 40 b (by omega)
  have e3 : readBytes 32 (b.drop 72) = .ok ((b.drop 72).take 32, b.drop 104) := by
    simpa using readBytes_drop 32 72 b (by omega)
  have e4 : readBytes 32 (b.drop 104) = .ok ((b.drop 104).take 32, b.drop 136) := by
    simpa using readBytes_drop 32 104 b (by omega)
  have e5 : readBytes 32 (b.drop 136) = .ok ((b.drop 136).take 32, b.drop 168) := by
    simpa using readBytes_drop 32 136 b (by omega)
  have e6 : readBytes 32 (b.drop 168) = .ok ((b.drop 168).take 32, b.drop 200) := by
    simpa using readBytes_drop 32 168 b (by omega)
  have e7 : readU64 (b.drop 200) = .ok (leNat ((b.drop 200).take 8), b.drop 208) := by
    simpa using readU64_drop 200 b (by omega)
  have e8 : readU64 (b.drop 208) = .ok (leNat ((b.drop 208).take 8), b.drop 216) := by
    simpa using readU64_drop 208 b (by omega)
  have e9 : readU64 (b.drop 216) = .ok (leNat ((b.drop 216).take 8), b.drop 224) := by
    simpa using readU64_drop 216 b (by omega)
  have e10 : readU64 (b.drop 224) = .ok (leNat ((b.drop 224).take 8), b.drop 232) := by
    simpa using readU64_drop 224 b (by omega)
  have e11 : readU64 (b.drop 232) = .ok (leNat ((b.drop 232).take 8), b.drop 240) := by
    simpa using readU64_drop 232 b (by omega)
  have e12 : readU64 (b.drop 240) = .ok (leNat ((b.drop 240).take 8), b.drop 248) := by
    simpa using readU64_drop 240 b (by omega)
  refine ⟨⟨leNat (b.take 8), (b.drop 8).take 32, (b.drop 40).take 32, (b.drop 72).take 32,
      (b.drop 104).take 32, (b.drop 136).take 32, (b.drop 168).take 32,
      leNat ((b.drop 200).take 8), leNat ((b.drop 208).take 8), leNat ((b.drop 216).take 8),
      leNat ((b.drop 224).take 8), leNat ((b.drop 232).take 8), leNat ((b.drop 240).take 8),
      vsA, vsB, vsC⟩, ?_, rfl⟩
  unfold decodeMarketStateStruct
  simp only [e0, e1, e2, e3, e4, e5, e6, e7, e8, e9, e10, e11, e12, hA, hB, hC, ok_bind]

theorem marketStateDeserialize_ok_length {b : Bytes} {r : MarketStateRec}
    (h : marketStateDeserialize b = .ok r) : b.length = 408 := by
  unfold marketStateDeserialize at h
  rw [bind_ok_iff] at h
  obtain ⟨⟨r2, rest⟩, hs, h2⟩ := h
  obtain ⟨hlen, hrest, _⟩ := decodeMarketStateStruct_ok hs
  subst hrest
  dsimp only at h2
  split at h2
  · rename_i hnil
    have := List.drop_eq_nil_iff.mp hnil
    omega
  · exact absurd h2 (by simp)

theorem marketStateDeserialize_of_length {b : Bytes} (hlen : b.length = 408) :
    ∃ r, marketStateDeserialize b = .ok r ∧ r.tag = leNat (b.take 8) := by
  obtain ⟨r, hs, htag⟩ := decodeMarketStateStruct_complete (le_of_eq hlen.symm)
  refine ⟨r, ?_, htag⟩
  unfold marketStateDeserialize
  rw [bind_ok_iff]
  refine ⟨(r, b.drop 408), hs, ?_⟩
  dsimp only
  rw [if_pos (List.drop_eq_nil_of_le (by omega))]

theorem userAccountDeserializeUnchecked_ok {b : Bytes} {r : UserAccountRec}
    (h : userAccountDeserializeUnchecked b = .ok r) :
    152 + 16 * r.orders.length ≤ b.length ∧ r.tag = leNat (b.take 8) := by
  unfold userAccountDeserializeUnchecked at h
  rw [bind_ok_iff] at h
  obtain ⟨⟨r2, rest⟩, hs, h2⟩ := h
  obtain ⟨hle, htag, _⟩ := decodeUserAccountStruct_ok hs
  have : r2 = r := by simpa using h2
  subst this
  exact ⟨hle, htag⟩

set_option maxRecDepth 4000 in
/-- C5 counterexample: a UserAccount buffer one byte longer than its
expected record size (153 bytes against the 152 bytes of a record with
zero orders) decodes successfully under `deserializeUnchecked` instead
of yielding a length error. -/
theorem userAccount_decode_accepts_extra_byte :
    userAccountDeserializeUnchecked (List.replicate 153 0) =
      .ok ⟨0, List.replicate 32 0, List.replicate 32 0,
        0, 0, 0, 0, 0, 0, 0, 0, 0, []⟩ ∧
    (List.replicate 153 (0:Nat)).length = 153 := by
  constructor
  · rfl
  · simp

/-- C5 amended: a MarketState buffer decodes exactly when its length is
the expected 408 bytes (borsh `deserialize` checks both directions),
and a too-short buffer never yields a partially-populated record for
either type; but the UserAccount path uses `deserializeUnchecked`, so a
successfully decoded user record only guarantees the buffer is at
least as long as the record (trailing extra bytes are accepted and
ignored). -/
theorem decode_length_mismatch_behaviour :
    (∀ b : Bytes, (∃ r, marketStateDeserialize b = .ok r) ↔ b.length = 408) ∧
    (∀ (b : Bytes) (r : UserAccountRec), userAccountDeserializeUnchecked b = .ok r →
      152 + 16 * r.orders.length ≤ b.length) := by
  constructor
  · intro b
    constructor
    · rintro ⟨r, hr⟩
      exact marketStateDeserialize_ok_length hr
    · intro hlen
      obtain ⟨r, hr, _⟩ := marketStateDeserialize_of_length hlen
      exact ⟨r, hr⟩
  · intro b r h
    exact (userAccountDeserializeUnchecked_ok h).1

set_option maxRecDepth 4000 in
theorem decode_length_mismatch_behaviour_witness :
    (∃ r, marketStateDeserialize (List.replicate 408 (0:Nat)) = .ok r) ∧
    userAccountDeserializeUnchecked (List.replicate 153 0) =
      .ok (⟨0, List.replicate 32 0, List.replicate 32 0,
        0, 0, 0, 0, 0, 0, 0, 0, 0, []⟩ : UserAccountRec) ∧
    152 + 16 * ([] : List Nat).length ≤ (List.replicate 153 (0:Nat)).length :=
  ⟨(decode_length_mismatch_behaviour.1 (List.replicate 408 0)).mpr (by simp),
   rfl,
   decode_length_mismatch_behaviour.2 (List.replicate 153 0)
     (⟨0, List.replicate 32 0, List.replicate 32 0,
       0, 0, 0, 0, 0, 0, 0, 0, 0, []⟩ : UserAccountRec) rfl⟩

set_option maxRecDepth 8000 in
/-- C6 counterexample: a 408-byte buffer whose leading tag is 2 (the
UserAccount tag, not the MarketState tag 1) decodes successfully into
a MarketState record carrying the mismatched tag, with no
WrongAccountType error. -/
theorem marketState_decode_accepts_wrong_tag :
    marketStateDeserialize (2 :: List.replicate 407 (0:Nat)) =
      .ok ⟨2, List.replicate 32 0, List.replicate 32 0, List.replicate 32 0,
        List.replicate 32 0, List.replicate 32 0, List.replicate 32 0,
        0, 0, 0, 0, 0, 0, List.replicate 6 0, List.replicate 7 0,
        List.replicate 7 0⟩ := by
  rfl

/-- C6 amended: neither decoder checks the leading tag at all: every
408-byte buffer decodes into a MarketState record whose tag field is
whatever the first eight bytes hold, and every successfully decoded
UserAccount record likewise carries the tag read from the buffer;
callers must validate the tag themselves. -/
theorem decode_performs_no_tag_check :
    (∀ b : Bytes, b.length = 408 →
      ∃ r, marketStateDeserialize b = .ok r ∧ r.tag = leNat (b.take 8)) ∧
    (∀ (b : Bytes) (r : UserAccountRec), userAccountDeserializeUnchecked b = .ok r →
      r.tag = leNat (b.take 8)) := by
  constructor
  · intro b hlen
    exact marketStateDeserialize_of_length hlen
  · intro b r h
    exact (userAccountDeserializeUnchecked_ok h).2

set_option maxRecDepth 4000 in
theorem decode_performs_no_tag_check_witness :
    (∃ r, marketStateDeserialize (2 :: List.replicate 407 (0:Nat)) = .ok r ∧
      r.tag = leNat ((2 :: List.replicate 407 (0:Nat)).take 8)) ∧
    (⟨2, List.replicate 32 0, List.replicate 32 0,
        0, 0, 0, 0, 0, 0, 0, 0, 0, []⟩ : UserAccountRec).tag =
      leNat ((2 :: List.replicate 152 (0:Nat)).take 8) :=
  ⟨decode_performs_no_tag_check.1 (2 :: List.replicate 407 0) (by simp),
   decode_performs_no_tag_check.2 (2 :: List.replicate 152 0)
     ⟨2, List.replicate 32 0, List.replicate 32 0, 0, 0, 0, 0, 0, 0, 0, 0, 0, []⟩ rfl⟩

/-! ### Theorems on address resolution -/

theorem findProgramAddressFrom_ok
    (hash : List Bytes → Nat → Bytes → Bytes) (offCurve : Bytes → Bool)
    (seeds : List Bytes) (programId : Bytes) :
    ∀ (fuel : Nat) (addr : Bytes) (nonce : Nat),
    findProgramAddressFrom hash offCurve seeds programId fuel = some (addr, nonce) →
    addr = hash seeds nonce programId ∧ offCurve addr = true ∧ nonce < fuel := by
  intro fuel
  induction fuel with
  | zero => intro addr nonce h; exact absurd h (by simp [findProgramAddressFrom])
  | succ fuel ih =>
    intro addr nonce h
    unfold findProgramAddressFrom at h
    dsimp only at h
    split at h
    · rename_i hcurve
      obtain ⟨rfl, rfl⟩ : addr = pdaCandidate hash seeds fuel programId ∧ nonce = fuel := by
        simpa [eq_comm] using h
      exact ⟨rfl, hcurve, Nat.lt_succ_self _⟩
    · obtain ⟨h1, h2, h3⟩ := ih addr nonce h
      exact ⟨h1, h2, Nat.lt_trans h3 (Nat.lt_succ_self _)⟩

/-- C8: the market-signer derivation is `findProgramAddress` on the
single seed `(marketAddress)` and the user-account derivation is
`findProgramAddress` on the seed sequence `(marketAddress,
ownerAddress)`; a returned pair always consists of the hash of exactly
those seeds with the returned bump nonce (at most 255) accepted by the
off-curve test; and calls with identical seeds and program id return
identical results. -/
theorem address_derivation_deterministic_seed_layout
    (hash : List Bytes → Nat → Bytes → Bytes) (offCurve : Bytes → Bool)
    (marketAddress owner programId : Bytes) :
    deriveMarketSigner hash offCurve marketAddress programId =
      findProgramAddress hash offCurve [marketAddress] programId ∧
    findOpenOrdersAccountForOwner hash offCurve marketAddress owner programId =
      (findProgramAddress hash offCurve [marketAddress, owner] programId).map Prod.fst ∧
    (∀ (addr : Bytes) (nonce : Nat),
      deriveMarketSigner hash offCurve marketAddress programId = some (addr, nonce) →
      addr = hash [marketAddress] nonce programId ∧ offCurve addr = true ∧ nonce ≤ 255) ∧
    (∀ m2 o2 p2 : Bytes, m2 = marketAddress → o2 = owner → p2 = programId →
      deriveMarketSigner hash offCurve m2 p2 =
        deriveMarketSigner hash offCurve marketAddress programId ∧
      findOpenOrdersAccountForOwner hash offCurve m2 o2 p2 =
        findOpenOrdersAccountForOwner hash offCurve marketAddress owner programId) := by
  refine ⟨rfl, rfl, ?_, ?_⟩
  · intro addr nonce h
    obtain ⟨h1, h2, h3⟩ :=
      findProgramAddressFrom_ok hash offCurve [marketAddress] programId 256 addr nonce h
    exact ⟨h1, h2, by omega⟩
  · intro m2 o2 p2 hm ho hp
    subst hm
    subst ho
    subst hp
    exact ⟨rfl, rfl⟩

theorem address_derivation_deterministic_seed_layout_witness :
    deriveMarketSigner (fun _ b _ => [b]) (fun _ => true) [1] [9] =
      some ([255], 255) ∧
    (([255] : Bytes) = [255] ∧ true = true ∧ 255 ≤ 255) ∧
    (deriveMarketSigner (fun _ b _ => ([b] : Bytes)) (fun _ => true) [1] [9] =
      deriveMarketSigner (fun _ b _ => [b]) (fun _ => true) [1] [9] ∧
     findOpenOrdersAccountForOwner (fun _ b _ => [b]) (fun _ => true) [1] [2] [9] =
      findOpenOrdersAccountForOwner (fun _ b _ => [b]) (fun _ => true) [1] [2] [9]) :=
  ⟨rfl,
   (address_derivation_deterministic_seed_layout (fun _ b _ => [b]) (fun _ => true)
      [1] [2] [9]).2.2.1 [255] 255 rfl,
   (address_derivation_deterministic_seed_layout (fun _ b _ => [b]) (fun _ => true)
      [1] [2] [9]).2.2.2 [1] [2] [9] rfl rfl rfl⟩

end DexV4
